import Mathlib

/-!
Verification of core algorithms of the tsurlfilter content-blocking engine.

Strings from the source are modelled as `List Char` (JavaScript strings are
sequences of UTF-16 units; all inputs relevant to the claims are plain
characters, and `List Char` keeps the index arithmetic of the source exact).
JavaScript numbers are modelled as `Nat`/`Int`; the hash arithmetic of the
source never wraps an integer type explicitly, so the fold is kept exact.
-/

/-! ## utils.ts: fastHash / fastHashBetween -/

/-- The djb2 fold (seed 5381, multiplier 33) over character codes,
as the specification describes it. -/
def djb2Fold (l : List Char) : Nat :=
  l.foldl (fun h c => 33 * h + c.toNat) 5381

/-- The index loop of `fastHashBetween` from utils.ts:
`hash = 5381; for (idx = begin; idx < end; idx++) hash = 33*hash + charCodeAt(idx)`.
Out-of-range indices are never reached by the callers modelled here. -/
def fastHashBetweenGo (s : List Char) (e : Nat) (idx : Nat) (h : Nat) : Nat :=
  if idx < e then
    fastHashBetweenGo s e (idx + 1) (33 * h + (s.getD idx (Char.ofNat 0)).toNat)
  else
    h
termination_by e - idx

/-- utils.ts `fastHashBetween(str, begin, end)`. -/
def fastHashBetween (s : List Char) (b e : Nat) : Nat :=
  fastHashBetweenGo s e b 5381

/-- utils.ts `fastHash(str)`: returns 0 for the empty string, otherwise the
djb2 loop over the whole string. -/
def fastHash (s : List Char) : Nat :=
  if s = [] then 0 else fastHashBetween s 0 s.length

/-! ## network-engine.ts: getRuleShortcuts / isAnyURLShortcut -/

/-- network-engine.ts `NetworkEngine.isAnyURLShortcut`: shortcuts that would
catch almost every URL (`shortcut.indexOf(p) === 0` is a prefix test). -/
def isAnyURLShortcut (shortcut : List Char) : Bool :=
  (decide (shortcut.length < 6) && "ws:".toList.isPrefixOf shortcut)
  || (decide (shortcut.length < 7) && "|ws".toList.isPrefixOf shortcut)
  || (decide (shortcut.length < 9) && "http".toList.isPrefixOf shortcut)
  || (decide (shortcut.length < 10) && "|http".toList.isPrefixOf shortcut)

/-- network-engine.ts `NetworkEngine.getRuleShortcuts`: `null` when the
shortcut is shorter than 5 or catches everything; otherwise the substrings
`shortcut.substring(i, i+5)` for `0 <= i < shortcut.length - 5`
(the source loop uses a strict `<` bound). -/
def getRuleShortcuts (shortcut : List Char) : Option (List (List Char)) :=
  if shortcut.length < 5 then none
  else if isAnyURLShortcut shortcut then none
  else some ((List.range (shortcut.length - 5)).map fun i => (shortcut.drop i).take 5)

/-- `map.set(k, v)` on an integer-keyed association list standing for a JS
`Map`: replace in place or append a new binding (insertion order kept). -/
def intAssocSet {α : Type} : List (Int × α) → Int → α → List (Int × α)
  | [], k, v => [(k, v)]
  | kv :: rest, k, v =>
    if kv.1 = k then (k, v) :: rest else kv :: intAssocSet rest k v

/-- network-engine.ts `NetworkEngine.addRuleToShortcutsTable`. The histogram
and the lookup table are association lists keyed by the hash value; the
selection fold mirrors the source's `shortcutHash = -1 / minCount = 2147483647`
initialisation, hence the `Int`-valued accumulator. -/
def addRuleToShortcutsTable (hist : List (Int × Int)) (table : List (Int × List Nat))
    (shortcut : List Char) (storageIdx : Nat) :
    Bool × List (Int × Int) × List (Int × List Nat) :=
  match getRuleShortcuts shortcut with
  | none => (false, hist, table)
  | some shortcuts =>
    if shortcuts.length = 0 then (false, hist, table)
    else
      let pick := shortcuts.foldl
        (fun (p : Int × Int) sc =>
          let h : Int := (fastHash sc : Nat)
          let count : Int := ((hist.find? (fun kv => kv.1 = h)).map Prod.snd).getD 0
          if count < p.2 then (h, count) else p)
        (-1, 2147483647)
      let hist' := intAssocSet hist pick.1 (pick.2 + 1)
      let old := ((table.find? (fun kv => kv.1 = pick.1)).map Prod.snd).getD []
      let table' := intAssocSet table pick.1 (old ++ [storageIdx])
      (true, hist', table')

/-! ## network-engine.ts: getSubdomains -/

/-- Split a character list at every `'.'`, keeping empty parts, as
JavaScript `hostname.split('.')` does. -/
def splitDot : List Char → List (List Char)
  | [] => [[]]
  | c :: rest =>
    match splitDot rest with
    | [] => [[]]
    | p :: ps => if c = '.' then [] :: p :: ps else (c :: p) :: ps

/-- Join parts with `'.'` separators; inverse of `splitDot`. -/
def joinDot : List (List Char) → List Char
  | [] => []
  | [p] => p
  | p :: ps => p ++ '.' :: joinDot ps

/-- The loop body of `getSubdomains`: iterate over the parts from the last one
to the first, extending the accumulated domain
(`domain = parts[i]` when the accumulator is empty, else
`parts[i] + '.' + domain`) and pushing every intermediate value. -/
def subdomainsGo : List (List Char) → List Char → List (List Char)
  | [], _ => []
  | p :: rest, domain =>
    let d := if domain = [] then p else p ++ '.' :: domain
    d :: subdomainsGo rest d

/-- network-engine.ts `NetworkEngine.getSubdomains(hostname)`. -/
def getSubdomains (hostname : List Char) : List (List Char) :=
  subdomainsGo (splitDot hostname).reverse []

/-! ## cosmetic-lookup-table.ts -/

/-- A cosmetic rule as the lookup table sees it. `content`, the whitelist
flag, the generic flag and the permitted/restricted domain lists are the data
the table inspects through `getContent` / `isWhitelist` / `isGeneric` /
`getPermittedDomains`. -/
structure CosmeticRule where
  content : String
  whitelist : Bool
  generic : Bool
  permittedDomains : List String
  restrictedDomains : List String
deriving DecidableEq, Repr

/-- Modelled from the spec: `DomainModifier.isWildcardDomain` (the class is not
part of the sources at hand); the spec places a rule among the wildcard rules
"when any permitted domain contains `*`". -/
def isWildcardDomain (d : String) : Bool :=
  d.toList.contains '*'

/-- Modelled from the spec: wildcard domain matching follows label-wise glob
semantics — `*.example.com` matches `a.example.com` but not `example.com`. -/
def wildcardDomainMatch (d hostname : String) : Bool :=
  "*.".toList.isPrefixOf d.toList && (d.toList.drop 1).isSuffixOf hostname.toList

/-- Modelled from the spec: a single permitted/restricted domain pattern
matches a hostname either literally or by the wildcard glob. -/
def domainPatternMatch (d hostname : String) : Bool :=
  if isWildcardDomain d then wildcardDomainMatch d hostname else d == hostname

/-- Modelled from the spec: `CosmeticRule.match(hostname)` (cosmetic-rule.ts is
not part of the sources at hand) — "a cosmetic rule matches a hostname when
every permitted domain pattern matches the hostname and no restricted domain
pattern does". -/
def cosmeticRuleMatch (r : CosmeticRule) (hostname : String) : Bool :=
  r.permittedDomains.all (fun d => domainPatternMatch d hostname)
  && r.restrictedDomains.all (fun d => !domainPatternMatch d hostname)

/-- The state of a `CosmeticLookupTable`: `byHostname` and `whitelist` are
association lists standing for the source's `Map`s (insertion order kept). -/
structure CosmeticLookupTable where
  byHostname : List (String × List CosmeticRule)
  wildcardRules : List CosmeticRule
  genericRules : List CosmeticRule
  whitelist : List (String × List CosmeticRule)
deriving DecidableEq, Repr

/-- The freshly constructed table. -/
def emptyCosmeticLookupTable : CosmeticLookupTable :=
  ⟨[], [], [], []⟩

/-- Look up a key in an association list standing for a JS `Map`. -/
def assocGet {α : Type} (m : List (String × α)) (k : String) : Option α :=
  (m.find? (fun kv => kv.1 == k)).map Prod.snd

/-- `map.set(k, v)`: replace the value at an existing key in place, or append
a new binding (JS `Map` keeps insertion order). -/
def assocSet {α : Type} : List (String × α) → String → α → List (String × α)
  | [], k, v => [(k, v)]
  | kv :: rest, k, v =>
    if kv.1 == k then (k, v) :: rest else kv :: assocSet rest k v

/-- cosmetic-lookup-table.ts `CosmeticLookupTable.addRule`. -/
def CosmeticLookupTable.addRule (t : CosmeticLookupTable) (rule : CosmeticRule) :
    CosmeticLookupTable :=
  if rule.whitelist then
    let existing := (assocGet t.whitelist rule.content).getD []
    { t with whitelist := assocSet t.whitelist rule.content (existing ++ [rule]) }
  else if rule.generic then
    { t with genericRules := t.genericRules ++ [rule] }
  else if rule.permittedDomains ≠ [] then
    if rule.permittedDomains.any isWildcardDomain then
      { t with wildcardRules := t.wildcardRules ++ [rule] }
    else
      let by' := rule.permittedDomains.foldl
        (fun m domain => assocSet m domain ((assocGet m domain).getD [] ++ [rule]))
        t.byHostname
      { t with byHostname := by' }
  else t

/-- cosmetic-lookup-table.ts `CosmeticLookupTable.findByHostname`. The source
takes the array stored in `byHostname` (not a copy) and pushes the matching
wildcard rules into it, so when the hostname has an entry the push is visible
in the table afterwards; the function returns the filtered rules and the
resulting table state. -/
def CosmeticLookupTable.findByHostname (t : CosmeticLookupTable) (hostname : String) :
    List CosmeticRule × CosmeticLookupTable :=
  let matched := t.wildcardRules.filter (fun r => cosmeticRuleMatch r hostname)
  match assocGet t.byHostname hostname with
  | some stored =>
    let rules := stored ++ matched
    (rules.filter (fun r => !r.whitelist),
     { t with byHostname := assocSet t.byHostname hostname rules })
  | none =>
    (matched.filter (fun r => !r.whitelist), t)

/-- A table reachable from the fresh one by a sequence of `addRule` calls. -/
def addRules (rules : List CosmeticRule) : CosmeticLookupTable :=
  rules.foldl CosmeticLookupTable.addRule emptyCosmeticLookupTable

/-! ## filterlist/scanner/rule-scanner.ts -/

/-- `Buffer.from(line).length`: the UTF-8 byte length of a line. -/
def utf8Len (l : List Char) : Nat :=
  (l.map Char.utf8Size).sum

/-- JavaScript `String.prototype.trim`: strip whitespace from both ends. -/
def trimChars (l : List Char) : List Char :=
  ((l.dropWhile Char.isWhitespace).reverse.dropWhile Char.isWhitespace).reverse

/-- The scanner loop of `RuleScanner.scan` / `RuleScanner.readNextLine`,
acting on the remaining lines of the reader and the current position.
A line that is non-null but empty is falsy in the source, so it is skipped
without advancing `currentPos`; a non-empty line advances `currentPos` by its
byte length, and its trimmed text is handed to `RuleBuilder.createRule`
(abstracted as the parameter `cr`, with `isIgnored` abstracted as `ig`).
On success the result carries the rule, the line's start offset
(`currentRuleIndex`), the remaining lines and the new position. -/
def scanLoop {R : Type} (cr : List Char → Option R) (ig : R → Bool) :
    List (List Char) → Nat → Option (R × Nat) × List (List Char) × Nat
  | [], pos => (none, [], pos)
  | line :: rest, pos =>
    if line = [] then scanLoop cr ig rest pos
    else
      let t := trimChars line
      let pos' := pos + utf8Len line
      if t = [] then scanLoop cr ig rest pos'
      else
        match cr t with
        | none => scanLoop cr ig rest pos'
        | some r => if ig r then scanLoop cr ig rest pos' else ((some (r, pos), rest, pos'))

/-- The mutable fields of a `RuleScanner`: the reader's remaining lines,
`currentPos`, `currentRule` and `currentRuleIndex`. -/
structure ScanState (R : Type) where
  lines : List (List Char)
  currentPos : Nat
  currentRule : Option R
  currentRuleIndex : Nat
deriving DecidableEq, Repr

/-- rule-scanner.ts `RuleScanner.scan`: run the loop; on success store the
rule and its index, on exhaustion leave `currentRule`/`currentRuleIndex`. -/
def scanRule {R : Type} (cr : List Char → Option R) (ig : R → Bool)
    (st : ScanState R) : Bool × ScanState R :=
  match scanLoop cr ig st.lines st.currentPos with
  | (some (r, idx), rest, pos') => (true, ⟨rest, pos', some r, idx⟩)
  | (none, rest, pos') => (false, ⟨rest, pos', st.currentRule, st.currentRuleIndex⟩)

/-- rule-scanner.ts `RuleScanner.getRule`: the current `IndexedRule`
(rule and index) or `null`. -/
def getRule {R : Type} (st : ScanState R) : Option (R × Nat) :=
  st.currentRule.map (fun r => (r, st.currentRuleIndex))

/-! ## cookie-filtering.ts and cookie utils -/

/-- The `$cookie` advanced modifier of a network rule. Cookie-name matching
(`CookieModifier.matches`) is kept opaque as a predicate field. -/
structure CookieModifier where
  matchesName : String → Bool
  sameSite : Option String
  maxAge : Option Int

/-- A network rule carrying a `$cookie` modifier, as the cookie-filtering
module sees it. -/
structure CookieRule where
  whitelist : Bool
  modifier : CookieModifier

/-- An HTTP header. -/
structure Header where
  name : String
  value : String
deriving DecidableEq, Repr

/-- An entry of the per-request cookie schedule (`cookiesMap` values). -/
structure CookieEntry where
  remove : Bool
  name : String
  url : String
  rules : List CookieRule

/-- cookie-filtering.ts `CookieFiltering.isModifyingRule`:
the modifier specifies `sameSite`, or a `maxAge` greater than 0. -/
def isModifyingRule (r : CookieRule) : Bool :=
  r.modifier.sameSite.isSome
  || (r.modifier.maxAge.isSome && ((r.modifier.maxAge.getD 0) > 0))

/-- cookie-filtering.ts `CookieFiltering.lookupNotModifyingRule`: the first
rule whose modifier matches the cookie name and that is not modifying. -/
def lookupNotModifyingRule (cookieName : String) (rules : List CookieRule) :
    Option CookieRule :=
  rules.find? (fun r => r.modifier.matchesName cookieName && !isModifyingRule r)

/-- The loop of `CookieFiltering.lookupModifyingRules`: skip rules that do not
match; `return []` (encoded as `none`) as soon as a matching non-modifying
rule is seen; otherwise accumulate the matching rules in order. -/
def lookupModifyingRulesGo (cookieName : String) : List CookieRule → Option (List CookieRule)
  | [] => some []
  | r :: rest =>
    if !(r.modifier.matchesName cookieName) then lookupModifyingRulesGo cookieName rest
    else if !isModifyingRule r then none
    else (lookupModifyingRulesGo cookieName rest).map (r :: ·)

/-- cookie-filtering.ts `CookieFiltering.lookupModifyingRules`. -/
def lookupModifyingRules (cookieName : String) (rules : List CookieRule) :
    List CookieRule :=
  (lookupModifyingRulesGo cookieName rules).getD []

/-- cookie-filtering.ts `CookieFiltering.findHeaderByName`
(case-insensitive name comparison, first match). -/
def findHeaderByName (headers : List Header) (headerName : String) : Option Header :=
  headers.find? (fun h => h.name.toLower == headerName.toLower)

/-- The split step of cookie-utils `parseCookie`: JavaScript
`cookieValue.split(/; *"+"/)` — cut at every `';'` and consume the spaces
that follow it. -/
def splitCookiePairs : List Char → List (List Char)
  | [] => [[]]
  | c :: rest =>
    if c = ';' then [] :: splitCookiePairs (rest.dropWhile (· = ' '))
    else
      match splitCookiePairs rest with
      | [] => [[c]]
      | p :: ps => (c :: p) :: ps
termination_by l => l.length
decreasing_by
  · simp only [List.length_cons]
    exact Nat.lt_succ_of_le (List.dropWhile_suffix _).length_le
  · simp

/-- cookie utils `CookieUtils.parseCookie`: keep only pairs containing `'='`,
trim the key (before the first `'='`) and the value (after it). -/
def parseCookie (cookieValue : String) : List (String × String) :=
  (splitCookiePairs cookieValue.toList).filterMap fun p =>
    match p.findIdx? (· = '=') with
    | none => none
    | some eqIdx =>
      some ((trimChars (p.take eqIdx)).asString, (trimChars (p.drop (eqIdx + 1))).asString)

/-- `cookies.map((c) => name + "=" + value).join("; ")` from the header
rewrite at the end of `processRequestHeaders`. -/
def joinCookies (cookies : List (String × String)) : String :=
  String.intercalate "; " (cookies.map fun c => c.1 ++ "=" ++ c.2)

/-- Rewrite the value of the (first, case-insensitively named) `Cookie`
header — the source mutates the header object found by `findHeaderByName`. -/
def setCookieHeaderValue (v : String) : List Header → List Header
  | [] => []
  | h :: rest =>
    if h.name.toLower == "cookie" then { h with value := v } :: rest
    else h :: setCookieHeaderValue v rest

/-- The reverse iteration over the parsed cookies inside
`processRequestHeaders`. The source walks the array from the last element to
the first, so the recursion processes the tail (the later cookies) before the
head; for each cookie the blocking lookup runs first (a non-whitelist hit
splices the cookie out and schedules a remove entry; a whitelist hit only
schedules), then the modifying lookup schedules a modify entry when
non-empty. Returns the surviving cookies in order, the schedule entries in
the order they were pushed, and the `cookieHeaderModified` flag. -/
def processCookies (rules : List CookieRule) (url : String) :
    List (String × String) → List (String × String) × List CookieEntry × Bool
  | [] => ([], [], false)
  | c :: rest =>
    let r := processCookies rules url rest
    let bRule := lookupNotModifyingRule c.1 rules
    let removed := match bRule with | some b => !b.whitelist | none => false
    let entB : List CookieEntry :=
      match bRule with | some b => [⟨true, c.1, url, [b]⟩] | none => []
    let mRules := lookupModifyingRules c.1 rules
    let entM : List CookieEntry := if mRules.isEmpty then [] else [⟨false, c.1, url, mRules⟩]
    ((if removed then [] else [c]) ++ r.1, r.2.1 ++ entB ++ entM, r.2.2 || removed)

/-- `CookieFiltering.scheduleProcessingCookie` repeated over a batch of
entries: append to the existing list for the request id, or create it. -/
def scheduleEntries : List (Nat × List CookieEntry) → Nat → List CookieEntry →
    List (Nat × List CookieEntry)
  | [], rid, es => [(rid, es)]
  | kv :: rest, rid, es =>
    if kv.1 = rid then (kv.1, kv.2 ++ es) :: rest else kv :: scheduleEntries rest rid es

/-- cookie-filtering.ts `CookieFiltering.processRequestHeaders`: returns the
`cookieHeaderModified` flag together with the resulting request headers and
`cookiesMap` state. -/
def processRequestHeaders (requestId : Nat) (url : String) (requestHeaders : List Header)
    (cookieRules : List CookieRule) (cookiesMap : List (Nat × List CookieEntry)) :
    Bool × List Header × List (Nat × List CookieEntry) :=
  if cookieRules.isEmpty then (false, requestHeaders, cookiesMap)
  else
    match findHeaderByName requestHeaders "Cookie" with
    | none => (false, requestHeaders, cookiesMap)
    | some cookieHeader =>
      let cookies := parseCookie cookieHeader.value
      if cookies.isEmpty then (false, requestHeaders, cookiesMap)
      else
        let r := processCookies cookieRules url cookies
        let cookiesMap' := if r.2.1.isEmpty then cookiesMap
          else scheduleEntries cookiesMap requestId r.2.1
        let requestHeaders' := if r.2.2 then setCookieHeaderValue (joinCookies r.1) requestHeaders
          else requestHeaders
        (r.2.2, requestHeaders', cookiesMap')

/-- browser-cookie.ts `BrowserCookie`, reduced to the fields
`updateSetCookieMaxAge` reads: `maxAge` (a number, absent or set — the source
tests it for truthiness, so a stored 0 behaves like an absent value) and
`expires` (a `Date`, modelled by its time in seconds; a `Date` object is
always truthy). -/
structure BrowserCookie where
  maxAge : Option Int
  expires : Option Int
deriving DecidableEq, Repr

/-- The source's `cookieExpiresTimeSec` computation: `now + maxAge` when
`maxAge` is truthy (present and non-zero), else the `expires` time, else
null. -/
def cookieExpiresTimeSec (now : Int) (c : BrowserCookie) : Option Int :=
  match c.maxAge with
  | some m => if m ≠ 0 then some (now + m) else c.expires
  | none => c.expires

/-- cookie-filtering.ts `CookieFiltering.updateSetCookieMaxAge` with
`Date.now()/1000` abstracted as the parameter `now`. Returns the
was-modified flag and the updated cookie. -/
def updateSetCookieMaxAge (now : Int) (setCookie : BrowserCookie) (maxAge : Int) :
    Bool × BrowserCookie :=
  let newCookieExpiresTimeSec := now + maxAge
  match cookieExpiresTimeSec now setCookie with
  | none =>
    (true, if setCookie.expires.isSome
      then { setCookie with expires := some newCookieExpiresTimeSec }
      else { setCookie with maxAge := some maxAge })
  | some t =>
    if t > newCookieExpiresTimeSec then
      (true, if setCookie.expires.isSome
        then { setCookie with expires := some newCookieExpiresTimeSec }
        else { setCookie with maxAge := some maxAge })
    else (false, setCookie)

/-! ## network-engine.ts: matchShortcutsLookupTable -/

/-- A request as the shortcut phase sees it. `match` is the rule's full
matching predicate, kept opaque. -/
structure NetRequest where
  urlLowercase : List Char

/-- A network rule as the shortcut phase sees it: only its `match` method. -/
structure NetworkRuleM where
  matchReq : NetRequest → Bool

/-- The shortcut table and storage of a `NetworkEngine`: the lookup table is
an association list keyed by the hash, and `retrieve` stands for
`ruleStorage.retrieveNetworkRule` (which may miss). -/
structure NetEngineState where
  shortcutsLookupTable : List (Int × List Nat)
  retrieve : Nat → Option NetworkRuleM

/-- network-engine.ts `MAX_URL_LENGTH = 4 * 1024`. -/
def maxUrlLength : Nat := 4 * 1024

/-- network-engine.ts `NetworkEngine.matchShortcutsLookupTable`: cap the URL
length at 4096, then for every window `[i, i+5)` hash it and collect the
stored rules that match the request. -/
def matchShortcutsLookupTable (eng : NetEngineState) (request : NetRequest) :
    List NetworkRuleM :=
  (List.range (min request.urlLowercase.length maxUrlLength + 1 - 5)).flatMap fun i =>
    match (eng.shortcutsLookupTable.find? (fun kv =>
        kv.1 = ((fastHashBetween request.urlLowercase i (i + 5) : Nat) : Int))).map
      Prod.snd with
    | none => []
    | some rulesIndexes =>
      rulesIndexes.filterMap fun ruleIdx =>
        match eng.retrieve ruleIdx with
        | some rule => if rule.matchReq request then some rule else none
        | none => none

/-- The candidate storage indexes the shortcut phase produces for a URL,
before retrieval and rule matching. -/
def shortcutCandidates (table : List (Int × List Nat)) (url : List Char) : List Nat :=
  (List.range (min url.length maxUrlLength + 1 - 5)).flatMap fun i =>
    ((table.find? (fun kv =>
        kv.1 = ((fastHashBetween url i (i + 5) : Nat) : Int))).map Prod.snd).getD []

/-! ## Helper lemmas -/

/-- The index loop of the hash equals a fold over the in-range slice. -/
theorem fastHashBetweenGo_eq (s : List Char) :
    ∀ (n e idx h : Nat), e - idx = n → e ≤ s.length →
    fastHashBetweenGo s e idx h =
      ((s.drop idx).take (e - idx)).foldl (fun a c => 33 * a + c.toNat) h := by
  intro n
  induction n with
  | zero =>
    intro e idx h he _
    have hnlt : ¬ idx < e := by omega
    unfold fastHashBetweenGo
    simp [hnlt, he]
  | succ n ih =>
    intro e idx h he hel
    have hlt : idx < e := by omega
    have hidx : idx < s.length := by omega
    unfold fastHashBetweenGo
    rw [if_pos hlt, ih e (idx + 1) _ (by omega) hel]
    rw [List.drop_eq_getElem_cons hidx]
    have hsub : e - idx = (e - (idx + 1)) + 1 := by omega
    rw [hsub, List.take_succ_cons, List.foldl_cons, List.getD_eq_getElem _ _ hidx]

/-- `fastHashBetween` is the djb2 fold, seeded with 5381, over the
characters of the range `[b, e)`. -/
theorem fastHashBetween_eq_fold (s : List Char) (b e : Nat) (he : e ≤ s.length) :
    fastHashBetween s b e =
      ((s.drop b).take (e - b)).foldl (fun a c => 33 * a + c.toNat) 5381 :=
  fastHashBetweenGo_eq s (e - b) e b 5381 rfl he

/-- Claim C8 (amended): for every non-empty string, `fastHash` is the djb2
fold with seed 5381 and multiplier 33 over the character codes, and
`fastHashBetween s b e` computes the same fold over the slice `[b, e)`;
for the empty string, however, `fastHash` returns 0, not the fold's 5381. -/
theorem fastHash_spec (s : List Char) (b e : Nat) (hne : s ≠ []) (he : e ≤ s.length) :
    fastHash s = djb2Fold s
    ∧ fastHashBetween s b e = djb2Fold ((s.drop b).take (e - b))
    ∧ fastHash [] = 0 := by
  refine ⟨?_, ?_, rfl⟩
  · unfold fastHash
    rw [if_neg hne, fastHashBetween_eq_fold s 0 s.length le_rfl]
    simp [djb2Fold]
  · rw [fastHashBetween_eq_fold s b e he]
    rfl

/-- Witness for `fastHash_spec` at the string "abc" and the range `[1, 3)`. -/
theorem fastHash_spec_witness :
    ("abc".toList ≠ [] ∧ 3 ≤ "abc".toList.length)
    ∧ (fastHash "abc".toList = djb2Fold "abc".toList
       ∧ fastHashBetween "abc".toList 1 3 = djb2Fold (("abc".toList.drop 1).take (3 - 1))
       ∧ fastHash [] = 0) :=
  ⟨⟨by decide, by decide⟩, fastHash_spec "abc".toList 1 3 (by decide) (by decide)⟩

/-- Counterexample to claim C8 as stated: on the empty string `fastHash`
returns 0 while the djb2 fold yields 5381. -/
theorem fastHash_empty_counterexample :
    fastHash [] ≠ djb2Fold [] ∧ fastHash [] = 0 ∧ djb2Fold [] = 5381 := by
  decide

/-- Claim C1 (amended): for a shortcut of length at least 5 that is not a
catches-everything pattern, `getRuleShortcuts` returns the length-5 windows
starting at positions `0 .. len-6` — that is `len - 5` of them, excluding the
final window `[len-5, len)`; in particular a shortcut of length exactly 5
yields the empty list, and such a rule is NOT placed in the shortcuts table
(`addRuleToShortcutsTable` returns false on it). -/
theorem getRuleShortcuts_spec (s : List Char) (hist : List (Int × Int))
    (table : List (Int × List Nat)) (idx : Nat)
    (h5 : 5 ≤ s.length) (hany : isAnyURLShortcut s = false) :
    ∃ l, getRuleShortcuts s = some l
      ∧ l.length = s.length - 5
      ∧ (∀ i, i < s.length - 5 → l[i]? = some ((s.drop i).take 5))
      ∧ (∀ w ∈ l, w.length = 5)
      ∧ (s.length = 5 →
          l = [] ∧ (addRuleToShortcutsTable hist table s idx).1 = false) := by
  have hnlt : ¬ s.length < 5 := by omega
  refine ⟨(List.range (s.length - 5)).map (fun i => (s.drop i).take 5), ?_, ?_, ?_, ?_, ?_⟩
  · unfold getRuleShortcuts
    rw [if_neg hnlt, if_neg (by simp [hany])]
  · simp
  · intro i hi
    rw [List.getElem?_map]
    simp [hi]
  · intro w hw
    rw [List.mem_map] at hw
    obtain ⟨i, hi, hwi⟩ := hw
    rw [List.mem_range] at hi
    have hdl : (s.drop i).length = s.length - i := by simp
    have : 5 ≤ s.length - i := by omega
    rw [← hwi, List.length_take, hdl]
    omega
  · intro hlen
    have hl0 : s.length - 5 = 0 := by omega
    refine ⟨by simp [hl0], ?_⟩
    unfold addRuleToShortcutsTable
    rw [show getRuleShortcuts s
        = some ((List.range (s.length - 5)).map (fun i => (s.drop i).take 5)) from by
      unfold getRuleShortcuts
      rw [if_neg hnlt, if_neg (by simp [hany])]]
    simp [hl0]

/-- Witness for `getRuleShortcuts_spec` at the 7-character shortcut
"abcdefg": two windows, "abcde" and "bcdef". -/
theorem getRuleShortcuts_spec_witness :
    (5 ≤ "abcdefg".toList.length ∧ isAnyURLShortcut "abcdefg".toList = false)
    ∧ (∃ l, getRuleShortcuts "abcdefg".toList = some l
      ∧ l.length = "abcdefg".toList.length - 5
      ∧ (∀ i, i < "abcdefg".toList.length - 5 →
          l[i]? = some (("abcdefg".toList.drop i).take 5))
      ∧ (∀ w ∈ l, w.length = 5)
      ∧ ("abcdefg".toList.length = 5 →
          l = [] ∧ (addRuleToShortcutsTable [] [] "abcdefg".toList 0).1 = false)) :=
  ⟨⟨by decide, by decide⟩,
   getRuleShortcuts_spec "abcdefg".toList [] [] 0 (by decide) (by decide)⟩

/-- Counterexample to claim C1 as stated: the shortcut "abcde" has length 5
and is no catches-everything pattern, yet `getRuleShortcuts` returns the
empty list rather than the claimed one-element set containing "abcde"
(the claimed count is `len - 4 = 1`). -/
theorem getRuleShortcuts_counterexample :
    5 ≤ "abcde".toList.length
    ∧ isAnyURLShortcut "abcde".toList = false
    ∧ getRuleShortcuts "abcde".toList = some []
    ∧ ((getRuleShortcuts "abcde".toList).getD []).length ≠ "abcde".toList.length - 4 := by
  decide

/-- `splitDot` never returns the empty list of parts. -/
theorem splitDot_ne_nil (l : List Char) : splitDot l ≠ [] := by
  cases l with
  | nil => simp [splitDot]
  | cons c rest =>
    unfold splitDot
    cases h : splitDot rest with
    | nil => simp
    | cons p ps =>
      by_cases hc : c = '.' <;> simp [hc]

/-- Joining the split parts gives the hostname back. -/
theorem joinDot_splitDot (l : List Char) : joinDot (splitDot l) = l := by
  induction l with
  | nil => rfl
  | cons c rest ih =>
    unfold splitDot
    cases h : splitDot rest with
    | nil => exact absurd h (splitDot_ne_nil rest)
    | cons p ps =>
      rw [h] at ih
      by_cases hc : c = '.'
      · subst hc
        simp only [if_pos rfl]
        show joinDot ([] :: p :: ps) = '.' :: rest
        rw [show joinDot ([] :: p :: ps) = [] ++ '.' :: joinDot (p :: ps) from rfl]
        rw [ih]
        rfl
      · simp only [if_neg hc]
        cases ps with
        | nil =>
          show (c :: p) = c :: rest
          rw [show joinDot [p] = p from rfl] at ih
          rw [ih]
        | cons q qs =>
          show (c :: p) ++ '.' :: joinDot (q :: qs) = c :: rest
          rw [List.cons_append]
          rw [show p ++ '.' :: joinDot (q :: qs) = joinDot (p :: q :: qs) from rfl]
          rw [ih]

/-- A join of non-empty parts is non-empty. -/
theorem joinDot_ne_nil (ps : List (List Char)) (hps : ps ≠ [])
    (hne : ∀ p ∈ ps, p ≠ []) : joinDot ps ≠ [] := by
  cases ps with
  | nil => exact absurd rfl hps
  | cons p rest =>
    cases rest with
    | nil =>
      show p ≠ []
      exact hne p (by simp)
    | cons q qs =>
      show p ++ '.' :: joinDot (q :: qs) ≠ []
      simp

/-- The parts pushed by the `getSubdomains` loop: every step conses the
current part onto the already-joined suffix. -/
def stackGo : List (List Char) → List (List Char) → List (List (List Char))
  | [], _ => []
  | q :: rest, s => (q :: s) :: stackGo rest (q :: s)

/-- The `getSubdomains` loop computes the joins of the part stacks. -/
theorem subdomainsGo_eq_stack (qs : List (List Char)) :
    ∀ (s : List (List Char)), (∀ p ∈ s, p ≠ []) → (∀ q ∈ qs, q ≠ []) →
    subdomainsGo qs (joinDot s) = (stackGo qs s).map joinDot := by
  induction qs with
  | nil => intro s _ _; rfl
  | cons q rest ih =>
    intro s hs hqs
    have hq : q ≠ [] := hqs q (by simp)
    have hd : (if joinDot s = [] then q else q ++ '.' :: joinDot s) = joinDot (q :: s) := by
      cases s with
      | nil => simp [joinDot]
      | cons p ps =>
        have : joinDot (p :: ps) ≠ [] := joinDot_ne_nil (p :: ps) (by simp) hs
        rw [if_neg this]
        rfl
    show (if joinDot s = [] then q else q ++ '.' :: joinDot s) ::
        subdomainsGo rest (if joinDot s = [] then q else q ++ '.' :: joinDot s)
      = joinDot (q :: s) :: (stackGo rest (q :: s)).map joinDot
    rw [hd]
    congr 1
    refine ih (q :: s) ?_ (fun x hx => hqs x (by simp [hx]))
    intro p hp
    rcases List.mem_cons.mp hp with h | h
    · exact h ▸ hq
    · exact hs p h

/-- Closed form of the part stacks. -/
theorem stackGo_eq (l : List (List Char)) :
    ∀ (s : List (List Char)),
    stackGo l s = (List.range l.length).map (fun i => (l.take (i + 1)).reverse ++ s) := by
  induction l with
  | nil => intro s; rfl
  | cons q rest ih =>
    intro s
    show (q :: s) :: stackGo rest (q :: s) = _
    rw [ih (q :: s)]
    rw [List.length_cons, List.range_succ_eq_map, List.map_cons, List.map_map]
    congr 1
    apply List.map_congr_left
    intro i _
    simp [List.take_succ_cons, Function.comp]

/-- Claim C3 (amended): `getSubdomains(hostname)` returns the dot-separated
suffixes of the hostname ordered LEAST-specific-first: the `j`-th element is
the join of the last `j+1` labels, the first element is the bare TLD and the
last element is the full hostname (the source pushes while walking the labels
from the last to the first, so `matchDomainsLookupTable` examines the
suffixes from the TLD up to the full hostname, not the other way round). -/
theorem getSubdomains_spec (hostname : List Char)
    (hne : ∀ p ∈ splitDot hostname, p ≠ []) :
    getSubdomains hostname =
      (List.range (splitDot hostname).length).map
        (fun j => joinDot ((splitDot hostname).drop ((splitDot hostname).length - 1 - j)))
    ∧ (getSubdomains hostname).getLast? = some hostname
    ∧ (getSubdomains hostname).head? = (splitDot hostname).getLast? := by
  have hn : 0 < (splitDot hostname).length :=
    List.length_pos.mpr (splitDot_ne_nil hostname)
  have hmain : getSubdomains hostname =
      (List.range (splitDot hostname).length).map
        (fun j => joinDot ((splitDot hostname).drop ((splitDot hostname).length - 1 - j))) := by
    unfold getSubdomains
    rw [show ([] : List Char) = joinDot [] from rfl]
    rw [subdomainsGo_eq_stack (splitDot hostname).reverse [] (by simp)
      (fun q hq => hne q (List.mem_reverse.mp hq))]
    rw [stackGo_eq, List.map_map, List.length_reverse]
    apply List.map_congr_left
    intro i hi
    rw [List.mem_range] at hi
    simp only [Function.comp_apply, List.append_nil]
    congr 1
    rw [List.reverse_take, List.reverse_reverse, List.length_reverse]
    congr 1
    omega
  have hidx : (splitDot hostname).length - 1 < (splitDot hostname).length := by omega
  refine ⟨hmain, ?_, ?_⟩
  · rw [hmain, List.getLast?_eq_getElem?, List.length_map, List.length_range,
      List.getElem?_map, List.getElem?_range hidx]
    simp only [Option.map_some']
    congr 1
    rw [show (splitDot hostname).length - 1 - ((splitDot hostname).length - 1) = 0 by omega]
    rw [List.drop_zero, joinDot_splitDot]
  · rw [hmain, List.head?_eq_getElem?, List.getElem?_map, List.getElem?_range hn]
    simp only [Option.map_some', Nat.sub_zero]
    rw [List.drop_eq_getElem_cons hidx]
    rw [show (splitDot hostname).length - 1 + 1 = (splitDot hostname).length by omega,
      List.drop_length]
    rw [List.getLast?_eq_getElem?, List.getElem?_eq_getElem hidx]
    rfl

/-- Witness for `getSubdomains_spec` at the hostname "www.example.com". -/
theorem getSubdomains_spec_witness :
    (∀ p ∈ splitDot "www.example.com".toList, p ≠ [])
    ∧ (getSubdomains "www.example.com".toList =
        (List.range (splitDot "www.example.com".toList).length).map
          (fun j => joinDot ((splitDot "www.example.com".toList).drop
            ((splitDot "www.example.com".toList).length - 1 - j)))
      ∧ (getSubdomains "www.example.com".toList).getLast? = some "www.example.com".toList
      ∧ (getSubdomains "www.example.com".toList).head?
          = (splitDot "www.example.com".toList).getLast?) :=
  ⟨by decide, getSubdomains_spec "www.example.com".toList (by decide)⟩

/-- Counterexample to claim C3 as stated: for "www.example.com" the function
returns the suffixes with the bare TLD first and the full hostname last —
the head of the list is "com", not the full hostname. -/
theorem getSubdomains_counterexample :
    getSubdomains "www.example.com".toList
      = ["com".toList, "example.com".toList, "www.example.com".toList]
    ∧ (getSubdomains "www.example.com".toList).head? ≠ some "www.example.com".toList := by
  decide

/-- Byte lengths add over concatenation. -/
theorem utf8Len_append (a b : List Char) : utf8Len (a ++ b) = utf8Len a + utf8Len b := by
  simp [utf8Len]

/-- A non-empty line has a positive byte length. -/
theorem utf8Len_pos (l : List Char) (h : l ≠ []) : 0 < utf8Len l := by
  cases l with
  | nil => exact absurd rfl h
  | cons c rest =>
    have := Char.utf8Size_pos c
    simp only [utf8Len, List.map_cons, List.sum_cons]
    omega

/-- Shape of a successful `scanLoop` run: some prefix of the lines is
consumed, the rule comes from the first line in the remainder that yields an
accepted rule, its index is the starting position plus the byte length of
the skipped prefix, and the final position points just past the rule's
line. -/
theorem scanLoop_success {R : Type} (cr : List Char → Option R) (ig : R → Bool) :
    ∀ (lines : List (List Char)) (pos : Nat) (r : R) (idx : Nat)
      (rest : List (List Char)) (pos' : Nat),
    (∀ l ∈ lines, l ≠ []) →
    scanLoop cr ig lines pos = (some (r, idx), rest, pos') →
    ∃ pre line, lines = pre ++ line :: rest
      ∧ idx = pos + utf8Len pre.flatten
      ∧ pos' = idx + utf8Len line
      ∧ line ≠ [] := by
  intro lines
  induction lines with
  | nil =>
    intro pos r idx rest pos' _ hscan
    simp [scanLoop] at hscan
  | cons line ls ih =>
    intro pos r idx rest pos' hne hscan
    have hline : line ≠ [] := hne line (by simp)
    unfold scanLoop at hscan
    rw [if_neg hline] at hscan
    have hne' : ∀ l ∈ ls, l ≠ [] := fun l hl => hne l (by simp [hl])
    by_cases ht : trimChars line = []
    · rw [if_pos ht] at hscan
      obtain ⟨pre, line', heq, hidx, hpos', hline'⟩ :=
        ih (pos + utf8Len line) r idx rest pos' hne' hscan
      refine ⟨line :: pre, line', by simp [heq], ?_, hpos', hline'⟩
      rw [hidx, List.flatten_cons, utf8Len_append]
      omega
    · rw [if_neg ht] at hscan
      cases hcr : cr (trimChars line) with
      | none =>
        rw [hcr] at hscan
        obtain ⟨pre, line', heq, hidx, hpos', hline'⟩ :=
          ih (pos + utf8Len line) r idx rest pos' hne' hscan
        refine ⟨line :: pre, line', by simp [heq], ?_, hpos', hline'⟩
        rw [hidx, List.flatten_cons, utf8Len_append]
        omega
      | some r0 =>
        rw [hcr] at hscan
        dsimp only at hscan
        by_cases hig : ig r0
        · rw [if_pos hig] at hscan
          obtain ⟨pre, line', heq, hidx, hpos', hline'⟩ :=
            ih (pos + utf8Len line) r idx rest pos' hne' hscan
          refine ⟨line :: pre, line', by simp [heq], ?_, hpos', hline'⟩
          rw [hidx, List.flatten_cons, utf8Len_append]
          omega
        · rw [if_neg hig] at hscan
          simp only [Prod.mk.injEq, Option.some.injEq] at hscan
          obtain ⟨⟨hr, hidx⟩, hrest, hpos'⟩ := hscan
          refine ⟨[], line, ?_, ?_, ?_, hline⟩
          · simp [hrest]
          · rw [← hidx]
            simp [utf8Len]
          · rw [← hpos', ← hidx]

/-- Byte length of a flattened concatenation splits at an append. -/
theorem utf8Len_flatten_append (a b : List (List Char)) :
    utf8Len ((a ++ b).flatten) = utf8Len a.flatten + utf8Len b.flatten := by
  rw [List.flatten_append, utf8Len_append]

/-- Claim C4: with a reader that yields each physical line with its trailing
newline (hence non-empty lines) and whose position accounts for the already
consumed input, two consecutive successful `scan()` calls produce
`IndexedRule`s whose indexes are the byte offsets of the rules' lines from
the start of the input, and the indexes are strictly increasing (the first
one may be 0, when nothing precedes the rule's line). -/
theorem ruleScanner_index_spec {R : Type} (cr : List Char → Option R) (ig : R → Bool)
    (consumed : List (List Char)) (st st₁ st₂ : ScanState R)
    (hne : ∀ l ∈ st.lines, l ≠ [])
    (hpos : st.currentPos = utf8Len consumed.flatten)
    (h₁ : scanRule cr ig st = (true, st₁))
    (h₂ : scanRule cr ig st₁ = (true, st₂)) :
    st₁.currentRuleIndex < st₂.currentRuleIndex
    ∧ ∃ pre₁ line₁ pre₂ line₂ r₁ r₂,
        st.lines = pre₁ ++ line₁ :: st₁.lines
        ∧ st₁.lines = pre₂ ++ line₂ :: st₂.lines
        ∧ getRule st₁ = some (r₁, utf8Len ((consumed ++ pre₁).flatten))
        ∧ getRule st₂ = some (r₂, utf8Len (((consumed ++ pre₁ ++ [line₁]) ++ pre₂).flatten)) := by
  unfold scanRule at h₁ h₂
  rcases hs₁ : scanLoop cr ig st.lines st.currentPos with ⟨o₁, rest₁, pos₁'⟩
  rw [hs₁] at h₁
  cases o₁ with
  | none => exact absurd (congrArg Prod.fst h₁) (by simp)
  | some ri₁ =>
    rcases ri₁ with ⟨r₁, idx₁⟩
    dsimp only at h₁
    have hst₁ : st₁ = ⟨rest₁, pos₁', some r₁, idx₁⟩ := (congrArg Prod.snd h₁).symm
    obtain ⟨pre₁, line₁, hsplit₁, hidx₁, hpos₁, hline₁⟩ :=
      scanLoop_success cr ig st.lines st.currentPos r₁ idx₁ rest₁ pos₁' hne hs₁
    have hlines₁ : st₁.lines = rest₁ := by rw [hst₁]
    have hne₂ : ∀ l ∈ st₁.lines, l ≠ [] := by
      rw [hlines₁]
      intro l hl
      exact hne l (by
        rw [hsplit₁]
        exact List.mem_append.mpr (Or.inr (List.mem_cons.mpr (Or.inr hl))))
    rcases hs₂ : scanLoop cr ig st₁.lines st₁.currentPos with ⟨o₂, rest₂, pos₂'⟩
    rw [hs₂] at h₂
    cases o₂ with
    | none => exact absurd (congrArg Prod.fst h₂) (by simp)
    | some ri₂ =>
      rcases ri₂ with ⟨r₂, idx₂⟩
      dsimp only at h₂
      have hst₂ : st₂ = ⟨rest₂, pos₂', some r₂, idx₂⟩ := (congrArg Prod.snd h₂).symm
      obtain ⟨pre₂, line₂, hsplit₂, hidx₂, hpos₂, hline₂⟩ :=
        scanLoop_success cr ig st₁.lines st₁.currentPos r₂ idx₂ rest₂ pos₂' hne₂ hs₂
      have hcp₁ : st₁.currentPos = pos₁' := by rw [hst₁]
      have hline₁pos : 0 < utf8Len line₁ := utf8Len_pos line₁ hline₁
      have e₁ : utf8Len ((consumed ++ pre₁).flatten)
          = utf8Len consumed.flatten + utf8Len pre₁.flatten :=
        utf8Len_flatten_append consumed pre₁
      have e₂ : utf8Len (((consumed ++ pre₁ ++ [line₁]) ++ pre₂).flatten)
          = utf8Len consumed.flatten + utf8Len pre₁.flatten
            + utf8Len line₁ + utf8Len pre₂.flatten := by
        rw [utf8Len_flatten_append (consumed ++ pre₁ ++ [line₁]) pre₂,
          utf8Len_flatten_append (consumed ++ pre₁) [line₁],
          utf8Len_flatten_append consumed pre₁]
        have : utf8Len (List.flatten [line₁]) = utf8Len line₁ := by
          simp [utf8Len]
        omega
      have hidx₂' : idx₂ = utf8Len (((consumed ++ pre₁ ++ [line₁]) ++ pre₂).flatten) := by
        rw [hcp₁] at hidx₂
        omega
      have hidx₁' : idx₁ = utf8Len ((consumed ++ pre₁).flatten) := by omega
      constructor
      · rw [hst₁, hst₂]
        show idx₁ < idx₂
        omega
      · refine ⟨pre₁, line₁, pre₂, line₂, r₁, r₂, ?_, ?_, ?_, ?_⟩
        · rw [hlines₁, hsplit₁]
        · rw [hsplit₂, hst₂]
        · rw [hst₁, ← hidx₁']
          rfl
        · rw [hst₂, ← hidx₂']
          rfl

/-- Witness for `ruleScanner_index_spec` on the list
"||example.org\n! test\n##banner" (a rule, a comment, a rule): the two
scans return rules at byte offsets 0 and 21. -/
theorem ruleScanner_index_spec_witness :
    ((∀ l ∈ (⟨["||example.org\n".toList, "! test\n".toList, "##banner".toList], 0,
        none, 0⟩ : ScanState (List Char)).lines, l ≠ [])
      ∧ (⟨["||example.org\n".toList, "! test\n".toList, "##banner".toList], 0,
        none, 0⟩ : ScanState (List Char)).currentPos
          = utf8Len ([] : List (List Char)).flatten
      ∧ scanRule (fun t => if t.head? = some '!' then none else some t) (fun _ => false)
          ⟨["||example.org\n".toList, "! test\n".toList, "##banner".toList], 0, none, 0⟩
        = (true, ⟨["! test\n".toList, "##banner".toList], 14, some "||example.org".toList, 0⟩)
      ∧ scanRule (fun t => if t.head? = some '!' then none else some t) (fun _ => false)
          ⟨["! test\n".toList, "##banner".toList], 14, some "||example.org".toList, 0⟩
        = (true, ⟨[], 29, some "##banner".toList, 21⟩))
    ∧ ((⟨["! test\n".toList, "##banner".toList], 14, some "||example.org".toList, 0⟩ :
          ScanState (List Char)).currentRuleIndex
        < (⟨[], 29, some "##banner".toList, 21⟩ : ScanState (List Char)).currentRuleIndex
      ∧ ∃ pre₁ line₁ pre₂ line₂ r₁ r₂,
          (⟨["||example.org\n".toList, "! test\n".toList, "##banner".toList], 0,
            none, 0⟩ : ScanState (List Char)).lines
            = pre₁ ++ line₁ :: (⟨["! test\n".toList, "##banner".toList], 14,
                some "||example.org".toList, 0⟩ : ScanState (List Char)).lines
          ∧ (⟨["! test\n".toList, "##banner".toList], 14, some "||example.org".toList, 0⟩ :
              ScanState (List Char)).lines
            = pre₂ ++ line₂ :: (⟨[], 29, some "##banner".toList, 21⟩ :
                ScanState (List Char)).lines
          ∧ getRule (⟨["! test\n".toList, "##banner".toList], 14,
              some "||example.org".toList, 0⟩ : ScanState (List Char))
            = some (r₁, utf8Len ((([] : List (List Char)) ++ pre₁).flatten))
          ∧ getRule (⟨[], 29, some "##banner".toList, 21⟩ : ScanState (List Char))
            = some (r₂, utf8Len (((([] : List (List Char)) ++ pre₁ ++ [line₁])
                ++ pre₂).flatten))) :=
  ⟨⟨by decide, by decide, by decide, by decide⟩,
   ruleScanner_index_spec (fun t => if t.head? = some '!' then none else some t)
     (fun _ => false) []
     ⟨["||example.org\n".toList, "! test\n".toList, "##banner".toList], 0, none, 0⟩
     ⟨["! test\n".toList, "##banner".toList], 14, some "||example.org".toList, 0⟩
     ⟨[], 29, some "##banner".toList, 21⟩
     (by decide) (by decide) (by decide) (by decide)⟩

/-- The `lookupModifyingRules` loop returns `none` exactly when some rule in
the list matches the cookie name without being modifying; otherwise it
returns the matching modifying rules in order. -/
theorem lookupModifyingRulesGo_eq (name : String) (rules : List CookieRule) :
    lookupModifyingRulesGo name rules =
      if rules.any (fun r => r.modifier.matchesName name && !isModifyingRule r) then none
      else some (rules.filter (fun r => r.modifier.matchesName name && isModifyingRule r)) := by
  induction rules with
  | nil => rfl
  | cons r rest ih =>
    unfold lookupModifyingRulesGo
    by_cases hm : r.modifier.matchesName name
    · by_cases hmod : isModifyingRule r
      · rw [if_neg (by simp [hm, hmod]), ih]
        by_cases hany : rest.any (fun r => r.modifier.matchesName name && !isModifyingRule r)
        · simp [hany, hm, hmod]
        · simp [hany, hm, hmod]
      · rw [if_neg (by simp [hm]), if_pos (by simp [hmod])]
        rw [if_pos (by simp [hm, hmod])]
    · rw [if_pos (by simp [hm]), ih]
      by_cases hany : rest.any (fun r => r.modifier.matchesName name && !isModifyingRule r)
      · simp [hany, hm]
      · simp [hany, hm]

/-- Claim C5: `lookupModifyingRules` returns the empty list when some rule in
the list matches the cookie name and is not modifying, and otherwise exactly
the matching modifying rules in list order; consequently the request-header
pass never pushes a modify (`remove := false`) schedule entry for a cookie
name to which a matching non-modifying rule applies. -/
theorem lookupModifyingRules_spec :
    (∀ (name : String) (rules : List CookieRule),
      lookupModifyingRules name rules =
        if rules.any (fun r => r.modifier.matchesName name && !isModifyingRule r) then []
        else rules.filter (fun r => r.modifier.matchesName name && isModifyingRule r))
    ∧ (∀ (rules : List CookieRule) (url : String) (cookies : List (String × String)),
        ((processCookies rules url cookies).2.1.filter (fun e => !e.remove)).all
          (fun e => !(rules.any
            (fun r => r.modifier.matchesName e.name && !isModifyingRule r))) = true) := by
  have hmain : ∀ (name : String) (rules : List CookieRule),
      lookupModifyingRules name rules =
        if rules.any (fun r => r.modifier.matchesName name && !isModifyingRule r) then []
        else rules.filter (fun r => r.modifier.matchesName name && isModifyingRule r) := by
    intro name rules
    unfold lookupModifyingRules
    rw [lookupModifyingRulesGo_eq]
    by_cases hany : rules.any (fun r => r.modifier.matchesName name && !isModifyingRule r)
    · simp [hany]
    · simp [hany]
  refine ⟨hmain, ?_⟩
  intro rules url cookies
  induction cookies with
  | nil => rfl
  | cons c rest ih =>
    unfold processCookies
    rw [List.filter_append, List.filter_append, List.all_append, List.all_append]
    rw [ih]
    simp only [Bool.true_and]
    rw [Bool.and_eq_true]
    constructor
    · cases hb : lookupNotModifyingRule c.1 rules with
      | none => rfl
      | some b => rfl
    · by_cases hm : (lookupModifyingRules c.1 rules).isEmpty
      · rw [if_pos hm]
        rfl
      · rw [if_neg hm]
        have hval : ¬ rules.any
            (fun r => r.modifier.matchesName c.1 && !isModifyingRule r) = true := by
          intro hany
          rw [hmain c.1 rules, if_pos hany] at hm
          exact hm rfl
        simp [hval]

/-- Claim C9: when there are no cookie rules, or no `Cookie` header
(case-insensitive), or the header value parses to zero name=value pairs,
`processRequestHeaders` returns false and leaves both the headers and the
per-request schedule map unchanged. -/
theorem processRequestHeaders_noop (requestId : Nat) (url : String)
    (headers : List Header) (rules : List CookieRule) (m : List (Nat × List CookieEntry))
    (h : rules = [] ∨ findHeaderByName headers "Cookie" = none
        ∨ ∃ hd, findHeaderByName headers "Cookie" = some hd ∧ parseCookie hd.value = []) :
    processRequestHeaders requestId url headers rules m = (false, headers, m) := by
  unfold processRequestHeaders
  rcases h with h | h | ⟨hd, hhd, hpc⟩
  · rw [if_pos (by simp [h])]
  · by_cases hr : rules.isEmpty
    · rw [if_pos hr]
    · rw [if_neg hr, h]
  · by_cases hr : rules.isEmpty
    · rw [if_pos hr]
    · rw [if_neg hr, hhd]
      dsimp only
      rw [hpc]
      rfl

/-- Witness for `processRequestHeaders_noop`: with an empty rule list nothing
changes. -/
theorem processRequestHeaders_noop_witness :
    (([] : List CookieRule) = [] ∨ findHeaderByName [⟨"Host", "example.org"⟩] "Cookie" = none
      ∨ ∃ hd, findHeaderByName [⟨"Host", "example.org"⟩] "Cookie" = some hd
          ∧ parseCookie hd.value = [])
    ∧ processRequestHeaders 7 "https://example.org/" [⟨"Host", "example.org"⟩] [] []
        = (false, [⟨"Host", "example.org"⟩], []) :=
  ⟨Or.inl rfl,
   processRequestHeaders_noop 7 "https://example.org/" [⟨"Host", "example.org"⟩] [] []
     (Or.inl rfl)⟩

/-- Claim C7 (amended): for a cookie whose stored `maxAge` is not the falsy 0,
`updateSetCookieMaxAge` modifies the cookie exactly when it has no effective
expiry or its effective expiry (`now + maxAge` when `maxAge` is set, else the
`expires` time) lies strictly after `now + maxAge`; on modification the value
`now + maxAge` is written into `expires` when present, else into `maxAge`,
the effective expiry never grows, and whenever `maxAge` or `expires` was
absent the new effective expiry is exactly `now + maxAge`. The flag returned
is true iff the cookie was changed. (The source leaves a stored positive
`maxAge` in place when it only rewrites `expires`, so in that one case the
effective expiry stays at `now + maxAge_old` rather than dropping.) -/
theorem updateSetCookieMaxAge_spec (now maxAge : Int) (c : BrowserCookie)
    (hma : c.maxAge ≠ some 0) (hpos : 0 < maxAge) :
    ((updateSetCookieMaxAge now c maxAge).1 = true ↔
      cookieExpiresTimeSec now c = none
        ∨ ∃ t, cookieExpiresTimeSec now c = some t ∧ now + maxAge < t)
    ∧ ((updateSetCookieMaxAge now c maxAge).1 = true →
        (updateSetCookieMaxAge now c maxAge).2 =
          (if c.expires.isSome then { c with expires := some (now + maxAge) }
           else { c with maxAge := some maxAge }))
    ∧ ((updateSetCookieMaxAge now c maxAge).1 = false →
        (updateSetCookieMaxAge now c maxAge).2 = c)
    ∧ ((updateSetCookieMaxAge now c maxAge).1 = true →
        (c.maxAge = none ∨ c.expires = none) →
        cookieExpiresTimeSec now (updateSetCookieMaxAge now c maxAge).2
          = some (now + maxAge))
    ∧ (∀ t, cookieExpiresTimeSec now c = some t →
        ∃ t', cookieExpiresTimeSec now (updateSetCookieMaxAge now c maxAge).2 = some t'
            ∧ t' ≤ t) := by
  have hp0 : maxAge ≠ 0 := by omega
  obtain ⟨ma, ex⟩ := c
  cases ma with
  | none =>
    cases ex with
    | none =>
      simp [updateSetCookieMaxAge, cookieExpiresTimeSec, hp0]
    | some e =>
      by_cases hgt : e > now + maxAge
      · simp only [updateSetCookieMaxAge, cookieExpiresTimeSec, if_pos hgt]
        refine ⟨by simp; omega, by simp, by simp, by simp [hp0], ?_⟩
        intro t ht
        simp only [Option.some.injEq] at ht
        exact ⟨now + maxAge, by simp [hp0], by omega⟩
      · simp only [updateSetCookieMaxAge, cookieExpiresTimeSec, if_neg hgt]
        refine ⟨by simp; omega, by simp, by simp, by simp, ?_⟩
        intro t ht
        exact ⟨t, ht, le_refl t⟩
  | some m =>
    cases ex with
    | none =>
      have hm0 : m ≠ 0 := fun h => hma (by rw [h])
      by_cases hgt : now + m > now + maxAge
      · simp only [updateSetCookieMaxAge, cookieExpiresTimeSec, if_pos hm0, if_pos hgt]
        refine ⟨by simp [hm0]; omega, by simp, by simp, by simp [hp0], ?_⟩
        intro t ht
        simp only [if_pos hm0, Option.some.injEq] at ht
        exact ⟨now + maxAge, by simp [hp0], by omega⟩
      · simp only [updateSetCookieMaxAge, cookieExpiresTimeSec, if_pos hm0, if_neg hgt]
        refine ⟨by simp [hm0]; omega, by simp, by simp, by simp, ?_⟩
        intro t ht
        exact ⟨t, ht, le_refl t⟩
    | some e =>
      have hm0 : m ≠ 0 := fun h => hma (by rw [h])
      by_cases hgt : now + m > now + maxAge
      · simp only [updateSetCookieMaxAge, cookieExpiresTimeSec, if_pos hm0, if_pos hgt]
        refine ⟨by simp [hm0]; omega, by simp, by simp, by simp, ?_⟩
        intro t ht
        simp only [if_pos hm0, Option.some.injEq] at ht
        exact ⟨now + m, by simp [hm0], by omega⟩
      · simp only [updateSetCookieMaxAge, cookieExpiresTimeSec, if_pos hm0, if_neg hgt]
        refine ⟨by simp [hm0]; omega, by simp, by simp, by simp, ?_⟩
        intro t ht
        exact ⟨t, ht, le_refl t⟩

/-- Witness for `updateSetCookieMaxAge_spec`: a cookie with `expires` 100s
away tightened by a 60s `maxAge` at time 0. -/
theorem updateSetCookieMaxAge_spec_witness :
    ((BrowserCookie.mk none (some 100)).maxAge ≠ some 0 ∧ (0 : Int) < 60)
    ∧ (((updateSetCookieMaxAge 0 ⟨none, some 100⟩ 60).1 = true ↔
        cookieExpiresTimeSec 0 ⟨none, some 100⟩ = none
          ∨ ∃ t, cookieExpiresTimeSec 0 ⟨none, some 100⟩ = some t ∧ 0 + 60 < t)
      ∧ ((updateSetCookieMaxAge 0 ⟨none, some 100⟩ 60).1 = true →
          (updateSetCookieMaxAge 0 ⟨none, some 100⟩ 60).2 =
            (if (BrowserCookie.mk none (some 100)).expires.isSome
             then { BrowserCookie.mk none (some 100) with expires := some (0 + 60) }
             else { BrowserCookie.mk none (some 100) with maxAge := some 60 }))
      ∧ ((updateSetCookieMaxAge 0 ⟨none, some 100⟩ 60).1 = false →
          (updateSetCookieMaxAge 0 ⟨none, some 100⟩ 60).2 = ⟨none, some 100⟩)
      ∧ ((updateSetCookieMaxAge 0 ⟨none, some 100⟩ 60).1 = true →
          ((BrowserCookie.mk none (some 100)).maxAge = none
            ∨ (BrowserCookie.mk none (some 100)).expires = none) →
          cookieExpiresTimeSec 0 (updateSetCookieMaxAge 0 ⟨none, some 100⟩ 60).2
            = some (0 + 60))
      ∧ (∀ t, cookieExpiresTimeSec 0 ⟨none, some 100⟩ = some t →
          ∃ t', cookieExpiresTimeSec 0 (updateSetCookieMaxAge 0 ⟨none, some 100⟩ 60).2
              = some t' ∧ t' ≤ t)) :=
  ⟨⟨by decide, by decide⟩,
   updateSetCookieMaxAge_spec 0 60 ⟨none, some 100⟩ (by decide) (by decide)⟩

/-- Counterexample to claim C7 as stated: a cookie with stored `maxAge = 0`
(an expiry equal to `now`, which is not later than `now + 60`) is still
changed — the source's truthiness test treats `maxAge: 0` as absent — and
its lifetime is extended from `now` to `now + 60`. -/
theorem updateSetCookieMaxAge_counterexample :
    (updateSetCookieMaxAge 0 ⟨some 0, none⟩ 60).1 = true
    ∧ (BrowserCookie.mk (some 0) none).maxAge ≠ none
    ∧ (0 : Int) + 0 ≤ 0 + 60
    ∧ (updateSetCookieMaxAge 0 ⟨some 0, none⟩ 60).2 = ⟨some 60, none⟩ := by
  decide

/-- Unfolding `assocGet` over a cons cell. -/
theorem assocGet_cons {α : Type} (kv : String × α) (l : List (String × α)) (d : String) :
    assocGet (kv :: l) d = if kv.1 == d then some kv.2 else assocGet l d := by
  by_cases h : kv.1 == d
  · simp [assocGet, List.find?_cons, h]
  · simp [assocGet, List.find?_cons, h]

/-- Reading an association list through a `set`. -/
theorem assocGet_assocSet {α : Type} (m : List (String × α)) (k : String) (v : α)
    (d : String) :
    assocGet (assocSet m k v) d = if k == d then some v else assocGet m d := by
  induction m with
  | nil =>
    by_cases hk : k == d
    · simp [assocSet, assocGet, List.find?_cons, hk]
    · simp [assocSet, assocGet, List.find?_cons, hk]
  | cons kv rest ih =>
    unfold assocSet
    by_cases hkv : kv.1 == k
    · rw [if_pos hkv, assocGet_cons, assocGet_cons]
      have hkv' : kv.1 = k := by simpa using hkv
      by_cases hk : (k == d)
      · simp [hk, hkv', hk]
      · simp [hk, hkv']
    · rw [if_neg hkv, assocGet_cons, assocGet_cons, ih]
      have hkv' : ¬ kv.1 = k := by simpa using hkv
      by_cases hd : kv.1 == d
      · have hd' : kv.1 = d := by simpa using hd
        have hk : ¬ (k == d) = true := by
          simp only [beq_iff_eq]
          intro hkd
          exact hkv' (by rw [hd', hkd])
        simp [hd, hk]
      · simp [hd]

/-- The invariant that no whitelist cosmetic rule sits in the `byHostname`,
wildcard or generic collections. -/
def noWhitelistTable (t : CosmeticLookupTable) : Prop :=
  (∀ d : String, ∀ r ∈ (assocGet t.byHostname d).getD [], r.whitelist = false)
  ∧ (∀ r ∈ t.wildcardRules, r.whitelist = false)
  ∧ (∀ r ∈ t.genericRules, r.whitelist = false)

/-- The `byHostname` fold of `addRule` preserves the invariant when the added
rule is not a whitelist rule. -/
theorem assocFold_no_whitelist (rule : CosmeticRule) (hr : rule.whitelist = false) :
    ∀ (doms : List String) (m : List (String × List CosmeticRule)),
    (∀ d : String, ∀ x ∈ (assocGet m d).getD [], x.whitelist = false) →
    (∀ d : String, ∀ x ∈ (assocGet
        (doms.foldl (fun m domain => assocSet m domain ((assocGet m domain).getD [] ++ [rule])) m)
        d).getD [], x.whitelist = false) := by
  intro doms
  induction doms with
  | nil => intro m hm; exact hm
  | cons dom rest ih =>
    intro m hm
    rw [List.foldl_cons]
    apply ih
    intro d x hx
    rw [assocGet_assocSet] at hx
    by_cases hd : dom == d
    · rw [if_pos hd] at hx
      simp only [Option.getD_some] at hx
      rcases List.mem_append.mp hx with h | h
      · exact hm dom x h
      · rw [List.mem_singleton.mp h]
        exact hr
    · rw [if_neg hd] at hx
      exact hm d x hx

/-- `addRule` preserves the no-whitelist invariant. -/
theorem addRule_no_whitelist (t : CosmeticLookupTable) (rule : CosmeticRule)
    (hinv : noWhitelistTable t) : noWhitelistTable (t.addRule rule) := by
  obtain ⟨hby, hwild, hgen⟩ := hinv
  unfold CosmeticLookupTable.addRule
  by_cases hw : rule.whitelist
  · rw [if_pos hw]
    exact ⟨hby, hwild, hgen⟩
  · rw [if_neg hw]
    by_cases hg : rule.generic
    · rw [if_pos hg]
      refine ⟨hby, hwild, ?_⟩
      intro r hrr
      rcases List.mem_append.mp hrr with h | h
      · exact hgen r h
      · rw [List.mem_singleton.mp h]
        exact Bool.not_eq_true _ ▸ (by simpa using hw)
    · rw [if_neg hg]
      by_cases hp : rule.permittedDomains ≠ []
      · rw [if_pos hp]
        by_cases hwc : rule.permittedDomains.any isWildcardDomain
        · rw [if_pos hwc]
          refine ⟨hby, ?_, hgen⟩
          intro r hrr
          rcases List.mem_append.mp hrr with h | h
          · exact hwild r h
          · rw [List.mem_singleton.mp h]
            exact (by simpa using hw)
        · rw [if_neg hwc]
          refine ⟨?_, hwild, hgen⟩
          exact assocFold_no_whitelist rule (by simpa using hw) rule.permittedDomains
            t.byHostname hby
      · rw [if_neg hp]
        exact ⟨hby, hwild, hgen⟩

/-- Any table built by `addRule` calls satisfies the invariant. -/
theorem addRules_no_whitelist_inv (rules : List CosmeticRule) :
    noWhitelistTable (addRules rules) := by
  have hstep : ∀ (rs : List CosmeticRule) (t : CosmeticLookupTable),
      noWhitelistTable t → noWhitelistTable (rs.foldl CosmeticLookupTable.addRule t) := by
    intro rs
    induction rs with
    | nil => intro t ht; exact ht
    | cons r rest ih =>
      intro t ht
      rw [List.foldl_cons]
      exact ih _ (addRule_no_whitelist t r ht)
  exact hstep rules emptyCosmeticLookupTable
    ⟨fun d r h => by simp [emptyCosmeticLookupTable, assocGet] at h,
     fun r h => by simp [emptyCosmeticLookupTable] at h,
     fun r h => by simp [emptyCosmeticLookupTable] at h⟩

/-- Claim C10: on a table built by any sequence of `addRule` calls, no rule
returned by `findByHostname` has the whitelist flag — whitelist cosmetic
rules live only in the `whitelist` map and never reach the `byHostname`,
wildcard or generic collections. -/
theorem findByHostname_no_whitelist (rules : List CosmeticRule) (hostname : String) :
    (∀ r ∈ ((addRules rules).findByHostname hostname).1, r.whitelist = false)
    ∧ (∀ d : String, ∀ r ∈ (assocGet (addRules rules).byHostname d).getD [],
        r.whitelist = false)
    ∧ (∀ r ∈ (addRules rules).wildcardRules, r.whitelist = false)
    ∧ (∀ r ∈ (addRules rules).genericRules, r.whitelist = false) := by
  obtain ⟨hby, hwild, hgen⟩ := addRules_no_whitelist_inv rules
  refine ⟨?_, hby, hwild, hgen⟩
  intro r hr
  unfold CosmeticLookupTable.findByHostname at hr
  rcases hg : assocGet (addRules rules).byHostname hostname with _ | stored
  · rw [hg] at hr
    simp only [List.mem_filter] at hr
    simpa using hr.2
  · rw [hg] at hr
    simp only [List.mem_filter] at hr
    simpa using hr.2

/-- Witness for `findByHostname_no_whitelist`: a whitelist rule, a hostname
rule and a matching wildcard rule on the hostname "example.org". -/
theorem findByHostname_no_whitelist_witness :
    ∀ r ∈ ((addRules
        [⟨".banner", true, false, ["example.org"], []⟩,
         ⟨".ad", false, false, ["example.org"], []⟩,
         ⟨".track", false, false, ["*.org"], []⟩]).findByHostname "example.org").1,
      r.whitelist = false := by
  have h := findByHostname_no_whitelist
    [⟨".banner", true, false, ["example.org"], []⟩,
     ⟨".ad", false, false, ["example.org"], []⟩,
     ⟨".track", false, false, ["*.org"], []⟩] "example.org"
  exact h.1

/-- Claim C2 is violated by the code: `findByHostname` pushes the matching
wildcard rules into the array stored in `byHostname`, so on a table holding a
hostname rule for "example.org" and a wildcard rule matching it, the first
call returns 2 rules and mutates the table, and the second call returns 3
rules (the wildcard rule duplicated) on a further-mutated table — the lookup
is neither read-only nor deterministic across repeated calls. -/
theorem findByHostname_mutates :
    ((addRules [⟨"a", false, false, ["example.org"], []⟩,
        ⟨"b", false, false, ["*.org"], []⟩]).findByHostname "example.org").1
      = [⟨"a", false, false, ["example.org"], []⟩, ⟨"b", false, false, ["*.org"], []⟩]
    ∧ (((addRules [⟨"a", false, false, ["example.org"], []⟩,
          ⟨"b", false, false, ["*.org"], []⟩]).findByHostname
            "example.org").2.findByHostname "example.org").1
      = [⟨"a", false, false, ["example.org"], []⟩, ⟨"b", false, false, ["*.org"], []⟩,
         ⟨"b", false, false, ["*.org"], []⟩]
    ∧ ((addRules [⟨"a", false, false, ["example.org"], []⟩,
          ⟨"b", false, false, ["*.org"], []⟩]).findByHostname "example.org").1
      ≠ (((addRules [⟨"a", false, false, ["example.org"], []⟩,
          ⟨"b", false, false, ["*.org"], []⟩]).findByHostname
            "example.org").2.findByHostname "example.org").1
    ∧ ((addRules [⟨"a", false, false, ["example.org"], []⟩,
          ⟨"b", false, false, ["*.org"], []⟩]).findByHostname "example.org").2
      ≠ addRules [⟨"a", false, false, ["example.org"], []⟩,
          ⟨"b", false, false, ["*.org"], []⟩] := by
  decide

/-- Claim C6: the shortcut phase looks at exactly the windows `[i, i+5)` for
`0 ≤ i ≤ min(len, 4096) - 5` — each candidate list comes from the hash of a
length-5 window of the URL (third conjunct), the matched rules are exactly
the candidates that retrieve and match (first conjunct), and the candidate
set is unchanged when the URL is truncated to its first 4096 characters
(second conjunct), so characters at positions 4096 and beyond never
influence it. -/
theorem matchShortcuts_url_cap (eng : NetEngineState) (request : NetRequest) :
    matchShortcutsLookupTable eng request
      = (shortcutCandidates eng.shortcutsLookupTable request.urlLowercase).filterMap
          (fun ruleIdx => match eng.retrieve ruleIdx with
            | some rule => if rule.matchReq request then some rule else none
            | none => none)
    ∧ shortcutCandidates eng.shortcutsLookupTable request.urlLowercase
      = shortcutCandidates eng.shortcutsLookupTable (request.urlLowercase.take maxUrlLength)
    ∧ shortcutCandidates eng.shortcutsLookupTable request.urlLowercase
      = (List.range (min request.urlLowercase.length maxUrlLength + 1 - 5)).flatMap
          (fun i => ((eng.shortcutsLookupTable.find? (fun kv =>
              kv.1 = ((djb2Fold ((request.urlLowercase.drop i).take 5) : Nat) : Int))).map
            Prod.snd).getD []) := by
  have hwin : ∀ i : Nat, i ∈ List.range (min request.urlLowercase.length maxUrlLength + 1 - 5) →
      fastHashBetween request.urlLowercase i (i + 5)
        = djb2Fold ((request.urlLowercase.drop i).take 5) := by
    intro i hi
    rw [List.mem_range] at hi
    have hle : i + 5 ≤ request.urlLowercase.length := by omega
    rw [fastHashBetween_eq_fold request.urlLowercase i (i + 5) hle]
    rw [show i + 5 - i = 5 by omega]
    rfl
  refine ⟨?_, ?_, ?_⟩
  · unfold matchShortcutsLookupTable shortcutCandidates
    rw [List.filterMap_flatMap]
    congr 1
    funext i
    rcases h : (eng.shortcutsLookupTable.find? (fun kv =>
        kv.1 = ((fastHashBetween request.urlLowercase i (i + 5) : Nat) : Int))).map Prod.snd
      with _ | idxs
    · rw [h]
      rfl
    · rw [h]
      rfl
  · unfold shortcutCandidates
    have hlen : min (request.urlLowercase.take maxUrlLength).length maxUrlLength
        = min request.urlLowercase.length maxUrlLength := by
      rw [List.length_take]
      omega
    rw [hlen]
    rw [show (List.range (min request.urlLowercase.length maxUrlLength + 1 - 5)).flatMap _
        = _ from rfl]
    unfold List.flatMap
    congr 1
    apply List.map_congr_left
    intro i hi
    rw [List.mem_range] at hi
    have h5 : i + 5 ≤ min request.urlLowercase.length maxUrlLength := by omega
    have hle₁ : i + 5 ≤ request.urlLowercase.length := by omega
    have hle₂ : i + 5 ≤ (request.urlLowercase.take maxUrlLength).length := by
      rw [List.length_take]
      omega
    have hslice : ((request.urlLowercase.take maxUrlLength).drop i).take 5
        = (request.urlLowercase.drop i).take 5 := by
      rw [List.drop_take, List.take_take]
      congr 1
      omega
    rw [fastHashBetween_eq_fold _ i (i + 5) hle₁,
      fastHashBetween_eq_fold _ i (i + 5) hle₂]
    rw [show i + 5 - i = 5 by omega, hslice]
  · unfold shortcutCandidates
    unfold List.flatMap
    congr 1
    apply List.map_congr_left
    intro i hi
    rw [hwin i hi]
